import Mathlib

/-!
Verification of the observation reconciliation engine of `run_metroman.py`:
time alignment, per-reach selection masks, the validity filter with its
deletion ledger, the quality tier state machine of `retrieve_obs`, and the
output re-expansion step of `write_output`.

Machine reals that only carry "defined / undefined (NaN)" information are
modelled as `Option Int` (`none` = NaN); observation instants are the rounded
integer hours the source computes.
-/

set_option maxHeartbeats 1000000

namespace MetroMan

/-! ## Output assembler (`write_output`, step 1)

The source computes `iInsert = iDelete - np.arange(nDelete)` and calls
`np.insert(arr, iInsert, fillvalue, 1)`.  `np.insert` with an ascending index
array places the j-th inserted value before ORIGINAL index `iInsert[j]`, i.e.
at final position `iInsert[j] + j`; it is realized below by sequential single
insertions at those adjusted positions. -/

/-- The sentinel fill value of `write_output`. -/
def fillvalue : Int := -999999999999

/-- Insert `a` before position `n` (append at the end if `n ≥ length`):
one single-index `np.insert` step. -/
def insertAt (l : List Int) (n : Nat) (a : Int) : List Int :=
  l.take n ++ a :: l.drop n

/-- Sequential insertion of `v` at the given positions, each applied to the
already-grown array. -/
def seqInsert (F : List Int) (ps : List Nat) (v : Int) : List Int :=
  ps.foldl (fun acc p => insertAt acc p v) F

/-- Elementwise `D - np.arange(|D|)`, starting the running index at `j`. -/
def subFrom : List Nat → Nat → List Nat
  | [], _ => []
  | d :: D, j => (d - j) :: subFrom D (j + 1)

/-- `iInsert = iDelete - np.arange(nDelete)` of `write_output`. -/
def iInsertOf (D : List Nat) : List Nat := subFrom D 0

/-- Elementwise `obj + np.arange (|obj|)`, starting the running index at `j`. -/
def addFrom : List Nat → Nat → List Nat
  | [], _ => []
  | p :: ps, j => (p + j) :: addFrom ps (j + 1)

/-- `np.insert(a, obj, v)` for a sorted index array `obj`: the j-th value is
placed before original index `obj[j]`, i.e. at final position `obj[j] + j`. -/
def npInsert (a : List Int) (obj : List Nat) (v : Int) : List Int :=
  seqInsert a (addFrom obj 0) v

/-- `write_output` step 1: re-expansion of a filtered per-time-step array by
`np.insert` at positions `iDelete - np.arange(nDelete)`. -/
def assembleOutput (F : List Int) (D : List Nat) (v : Int) : List Int :=
  npInsert F (iInsertOf D) v

/-- The spec's scatter description of re-expansion: a full-length array whose
entries at indices in `D` hold the sentinel and whose remaining entries are
the values of `F` in order. -/
def scatterSpec (F : List Int) (D : List Nat) (v : Int) : List Int :=
  (List.range (F.length + D.length)).map (fun p =>
    if p ∈ D then v else F.getD (p - D.countP (fun d => decide (d < p))) 0)

theorem length_insertAt (l : List Int) (n : Nat) (a : Int) :
    (insertAt l n a).length = l.length + 1 := by
  simp [insertAt]
  omega

theorem getD_insertAt_lt (l : List Int) (n : Nat) (a : Int) (q : Nat) (x : Int)
    (hq : q < n) (hn : n ≤ l.length) :
    (insertAt l n a).getD q x = l.getD q x := by
  have ht : (l.take n).length = n := by
    rw [List.length_take]
    omega
  have hq1 : q < (l.take n).length := by omega
  have hq2 : q < l.length := by omega
  rw [insertAt, List.getD_append _ _ _ _ hq1, List.getD_eq_getElem _ _ hq1,
    List.getElem_take, List.getD_eq_getElem _ _ hq2]

theorem getD_insertAt_self (l : List Int) (n : Nat) (a : Int) (x : Int)
    (hn : n ≤ l.length) :
    (insertAt l n a).getD n x = a := by
  have ht : (l.take n).length = n := by
    rw [List.length_take]
    omega
  rw [insertAt, List.getD_append_right _ _ _ _ (by omega), ht, Nat.sub_self,
    List.getD_cons_zero]

theorem getD_insertAt_gt (l : List Int) (n : Nat) (a : Int) (q : Nat) (x : Int)
    (hq : n < q) (hn : n ≤ l.length) :
    (insertAt l n a).getD q x = l.getD (q - 1) x := by
  have ht : (l.take n).length = n := by
    rw [List.length_take]
    omega
  rw [insertAt, List.getD_append_right _ _ _ _ (by omega), ht]
  have hsub : q - n = (q - n - 1) + 1 := by omega
  rw [hsub, List.getD_cons_succ, List.getD_eq_getElem?_getD, List.getElem?_drop,
    ← List.getD_eq_getElem?_getD]
  congr 1
  omega

theorem pairwise_head_add_length_lt (d : Nat) (D : List Nat) (n : Nat)
    (hp : (d :: D).Pairwise (· < ·)) (hb : ∀ e ∈ d :: D, e < n) :
    d + D.length < n := by
  induction D generalizing d with
  | nil =>
    have := hb d (by simp)
    simpa using this
  | cons e D ih =>
    have hde : d < e := (List.pairwise_cons.1 hp).1 e (by simp)
    have he := ih e hp.of_cons (fun x hx => hb x (List.mem_cons_of_mem d hx))
    simp only [List.length_cons]
    omega

theorem countP_lt_of_gt (D : List Nat) (hnd : D.Nodup) (d p : Nat)
    (hgt : ∀ e ∈ D, d < e) :
    D.countP (fun e => decide (e < p)) ≤ p - d - 1 := by
  rw [List.countP_eq_length_filter]
  have hfn : (D.filter (fun e => decide (e < p))).Nodup := hnd.filter _
  have hsub : (D.filter (fun e => decide (e < p))).toFinset ⊆ Finset.Ioo d p := by
    intro x hx
    rw [List.mem_toFinset, List.mem_filter] at hx
    rw [Finset.mem_Ioo]
    exact ⟨hgt x hx.1, by simpa using hx.2⟩
  have := Finset.card_le_card hsub
  rw [List.toFinset_card_of_nodup hfn, Nat.card_Ioo] at this
  exact this

theorem scatter_cons (F : List Int) (d : Nat) (D : List Nat) (v : Int)
    (hd : d ≤ F.length) (hgt : ∀ e ∈ D, d < e) (hnd : D.Pairwise (· < ·)) :
    scatterSpec F (d :: D) v = scatterSpec (insertAt F d v) D v := by
  have hlen : F.length + (d :: D).length = (insertAt F d v).length + D.length := by
    rw [length_insertAt, List.length_cons]
    omega
  have hDnodup : D.Nodup := hnd.imp (fun h => Nat.ne_of_lt h)
  rw [scatterSpec, scatterSpec, hlen]
  apply List.map_congr_left
  intro p hp
  rw [List.mem_range] at hp
  by_cases hpD : p ∈ D
  · rw [if_pos (List.mem_cons_of_mem d hpD), if_pos hpD]
  · by_cases hpd : p = d
    · subst hpd
      have hc : List.countP (fun e => decide (e < p)) D = 0 := by
        rw [List.countP_eq_zero]
        intro e he
        have := hgt e he
        simp only [decide_eq_true_eq]
        omega
      rw [if_pos (List.mem_cons_self p D), if_neg hpD, hc, Nat.sub_zero,
        getD_insertAt_self _ _ _ _ hd]
    · have hmem : ¬ p ∈ d :: D := by
        simp [List.mem_cons, hpd, hpD]
      rw [if_neg hmem, if_neg hpD]
      rcases Nat.lt_or_ge p d with hlt | hge
      · have hc : List.countP (fun e => decide (e < p)) D = 0 := by
          rw [List.countP_eq_zero]
          intro e he
          have := hgt e he
          simp only [decide_eq_true_eq]
          omega
        have hnotlt : ¬ d < p := by omega
        have hcc : List.countP (fun e => decide (e < p)) (d :: D) = 0 := by
          rw [List.countP_cons, hc]
          simp [hnotlt]
        rw [hcc, hc, Nat.sub_zero,
          getD_insertAt_lt _ _ _ _ _ hlt hd]
      · have hgtd : d < p := by omega
        have hcc : List.countP (fun e => decide (e < p)) (d :: D) =
            List.countP (fun e => decide (e < p)) D + 1 := by
          rw [List.countP_cons]
          simp [hgtd]
        have hbound := countP_lt_of_gt D hDnodup d p hgt
        have hidx : d < p - List.countP (fun e => decide (e < p)) D := by omega
        rw [hcc, getD_insertAt_gt _ _ _ _ _ hidx hd]
        have harith : p - (List.countP (fun e => decide (e < p)) D + 1) =
            p - List.countP (fun e => decide (e < p)) D - 1 := by omega
        rw [harith]

theorem seqInsert_eq_scatter (D : List Nat) (F : List Int) (v : Int)
    (hsort : D.Pairwise (· < ·)) (hb : ∀ e ∈ D, e < F.length + D.length) :
    seqInsert F D v = scatterSpec F D v := by
  induction D generalizing F with
  | nil =>
    have hlen : (seqInsert F [] v).length = (scatterSpec F [] v).length := by
      simp [seqInsert, scatterSpec]
    refine List.ext_getElem hlen ?_
    intro n h1 h2
    have hn : n < F.length := by simpa [seqInsert] using h1
    show (seqInsert F [] v)[n] = (scatterSpec F [] v)[n]
    have hsnil : seqInsert F [] v = F := rfl
    simp only [hsnil, scatterSpec, List.getElem_map, List.getElem_range,
      List.length_nil, List.countP_nil, List.not_mem_nil, if_false, Nat.sub_zero]
    rw [List.getD_eq_getElem F 0 hn]
  | cons d D ih =>
    have hgt : ∀ e ∈ D, d < e := fun e he => (List.pairwise_cons.1 hsort).1 e he
    have hd : d ≤ F.length := by
      have := pairwise_head_add_length_lt d D (F.length + (d :: D).length) hsort hb
      simp only [List.length_cons] at this ⊢
      omega
    have hstep : seqInsert F (d :: D) v = seqInsert (insertAt F d v) D v := rfl
    rw [hstep, ih (insertAt F d v)
      hsort.of_cons
      (by
        intro e he
        have := hb e (by simp [he])
        rw [length_insertAt]
        simp only [List.length_cons] at this
        omega),
      ← scatter_cons F d D v hd hgt hsort.of_cons]

theorem length_seqInsert (ps : List Nat) (F : List Int) (v : Int) :
    (seqInsert F ps v).length = F.length + ps.length := by
  induction ps generalizing F with
  | nil => simp [seqInsert]
  | cons p ps ih =>
    have hstep : seqInsert F (p :: ps) v = seqInsert (insertAt F p v) ps v := rfl
    rw [hstep, ih, length_insertAt, List.length_cons]
    omega

theorem length_subFrom (D : List Nat) (j : Nat) : (subFrom D j).length = D.length := by
  induction D generalizing j with
  | nil => rfl
  | cons d D ih => simp [subFrom, ih]

theorem addFrom_subFrom (D : List Nat) (j : Nat)
    (hsort : D.Pairwise (· < ·)) (hge : ∀ e ∈ D, j ≤ e) :
    addFrom (subFrom D j) j = D := by
  induction D generalizing j with
  | nil => rfl
  | cons d D ih =>
    have hd : j ≤ d := hge d (by simp)
    rw [subFrom, addFrom, Nat.sub_add_cancel hd,
      ih (j + 1) hsort.of_cons]
    intro e he
    have := (List.pairwise_cons.1 hsort).1 e he
    omega

/-- **C1** (amended).  The re-expansion actually performed by `write_output`
(`np.insert` at `iInsert = iDelete - arange(nDelete)`, whose j-th fill lands
at final position `iInsert[j] + j = iDelete[j]`) equals the scatter of the
filtered values into the complement of the deletion set, with the sentinel at
every deleted index; the result has length `|F| + |D|` (= the pre-filter nt),
the operation is a no-op for an empty deletion set, and the concrete case
`D = [1,3]`, `F = [a,b,c,d]` yields `[a, v, b, v, c, d]`. -/
theorem write_output_roundtrip (F : List Int) (D : List Nat) (v : Int)
    (hsort : D.Pairwise (· < ·)) (hb : ∀ d ∈ D, d < F.length + D.length) :
    assembleOutput F D v = scatterSpec F D v ∧
    (assembleOutput F D v).length = F.length + D.length ∧
    (D = [] → assembleOutput F D v = F) ∧
    (∀ a b c d : Int, assembleOutput [a, b, c, d] [1, 3] v = [a, v, b, v, c, d]) := by
  have hkey : assembleOutput F D v = seqInsert F D v := by
    rw [assembleOutput, npInsert, iInsertOf,
      addFrom_subFrom D 0 hsort (fun e _ => Nat.zero_le e)]
  refine ⟨?_, ?_, ?_, ?_⟩
  · rw [hkey]
    exact seqInsert_eq_scatter D F v hsort hb
  · rw [hkey, length_seqInsert]
  · intro hD
    subst hD
    rfl
  · intro a b c d
    rfl

/-- **C1** witness: the round-trip theorem applied at `F = [10,20,30,40]`,
`D = [1,3]`, `v = fillvalue`. -/
theorem write_output_roundtrip_witness :
    assembleOutput [10, 20, 30, 40] [1, 3] fillvalue =
      scatterSpec [10, 20, 30, 40] [1, 3] fillvalue ∧
    (assembleOutput [10, 20, 30, 40] [1, 3] fillvalue).length = 6 ∧
    ([1, 3] = ([] : List Nat) →
      assembleOutput [10, 20, 30, 40] [1, 3] fillvalue = [10, 20, 30, 40]) ∧
    (∀ a b c d : Int,
      assembleOutput [a, b, c, d] [1, 3] fillvalue = [a, fillvalue, b, fillvalue, c, d]) :=
  write_output_roundtrip [10, 20, 30, 40] [1, 3] fillvalue
    (by decide) (by decide)

/-- **C1** counterexample to the claim as stated: literally inserting the
sentinel SEQUENTIALLY at positions `I[j] = D[j] - j` (each insertion applied
to the already-grown array, as the spec words it) does NOT reproduce the
scatter result for `D = [1,3]`, `F = [10,20,30,40]`: it yields
`[10, fill, fill, 20, 30, 40]` instead of `[10, fill, 20, fill, 30, 40]`. -/
theorem seq_insert_literal_counterexample :
    seqInsert [10, 20, 30, 40] (iInsertOf [1, 3]) fillvalue =
      [10, fillvalue, fillvalue, 20, 30, 40] ∧
    scatterSpec [10, 20, 30, 40] [1, 3] fillvalue =
      [10, fillvalue, 20, fillvalue, 30, 40] ∧
    seqInsert [10, 20, 30, 40] (iInsertOf [1, 3]) fillvalue ≠
      scatterSpec [10, 20, 30, 40] [1, 3] fillvalue := by
  refine ⟨rfl, ?_, ?_⟩
  · rfl
  · decide

/-! ## Data model

A reach record carries the contents of its SWOT file (when the file exists),
and the discharge-scale prior read from the SoS file (`none` models a NaN
`mean_q`).  Channel readings and instants are `Option Int` (`none` = NaN). -/

structure SwotData where
  ts : List (Option Int)
  h : List (Option Int)
  w : List (Option Int)
  S : List (Option Int)

structure Reach where
  id : Nat
  swot : Option SwotData
  qbar : Option Int

/-! ## Time alignment (`retrieve_obs`, step -1) -/

/-- Valid (non-NaN) instants of a raw sequence (the `treach` comprehension). -/
def validInstants (ts : List (Option Int)) : List Int := ts.filterMap id

/-- `list(set(xs).intersection(set(ys)))` up to element order: deduplicate
`xs` and keep exactly the elements that also occur in `ys`. -/
def interList (xs ys : List Int) : List Int :=
  xs.dedup.filter (fun x => decide (x ∈ ys))

/-- The `allts` dictionary of the first loop (lines 113-124): one entry per
reach whose SWOT file exists, later assignments shadowing earlier ones. -/
def buildAllts (reaches : List Reach) : List (Nat × List (Option Int)) :=
  reaches.foldl (fun m r =>
    match r.swot with
    | some d => (r.id, d.ts) :: m
    | none => m) []

/-- The overlap loop (lines 130-144): the first reach initializes
`overlap_ts` to its valid instants (duplicates kept!), each later reach
set-intersects with its valid instants; accessing a reach whose id is absent
from `allts` raises `KeyError`, modelled as `Except.error`. -/
def computeOverlap (allts : List (Nat × List (Option Int)))
    (reaches : List Reach) : Except Unit (List Int) :=
  match reaches with
  | [] => .ok []
  | r0 :: rest =>
    match List.lookup r0.id allts with
    | none => .error ()
    | some ts0 =>
      rest.foldlM (fun acc r =>
        match List.lookup r.id allts with
        | none => .error ()
        | some ts => .ok (interList acc (validInstants ts)))
        (validInstants ts0)

/-- The per-reach selection mask after the mask-fixing loop (lines 149-160):
over the full raw instant sequence, position `ii` is selected iff its value is
defined, lies in the overlap list, and did not already occur at an earlier
position of the same raw sequence. -/
def overlapMask (ov : List Int) (ts : List (Option Int)) : List Bool :=
  (List.range ts.length).map (fun ii =>
    match ts.getD ii none with
    | none => false
    | some v => decide (v ∈ ov) && !(decide (some v ∈ ts.take ii)))

theorem mem_take_getD (v : Int) :
    ∀ (ts : List (Option Int)) (ii : Nat),
      some v ∈ ts.take ii ↔ ∃ jj, jj < ii ∧ ts.getD jj none = some v
  | _, 0 => by simp
  | [], ii + 1 => by simp
  | t :: ts, ii + 1 => by
    simp only [List.take_succ_cons, List.mem_cons]
    constructor
    · rintro (h | h)
      · exact ⟨0, Nat.succ_pos ii, h.symm⟩
      · obtain ⟨jj, hj, hg⟩ := (mem_take_getD v ts ii).1 h
        exact ⟨jj + 1, Nat.succ_lt_succ hj, hg⟩
    · rintro ⟨jj, hj, hg⟩
      cases jj with
      | zero =>
        rw [List.getD_cons_zero] at hg
        exact Or.inl hg.symm
      | succ jj =>
        rw [List.getD_cons_succ] at hg
        exact Or.inr ((mem_take_getD v ts ii).2 ⟨jj, Nat.lt_of_succ_lt_succ hj, hg⟩)

/-- **C3**.  The selection mask selects a position iff its instant value lies
in the overlap set and it is the first occurrence of that value within the
reach's own raw sequence; concretely, raw instants `[5,5,7]` with overlap
list `[5,7]` yield the mask `[true, false, true]`. -/
theorem selection_mask_spec :
    (∀ (ov : List Int) (ts : List (Option Int)) (ii : Nat), ii < ts.length →
      ((overlapMask ov ts).getD ii false = true ↔
        ∃ v, ts.getD ii none = some v ∧ v ∈ ov ∧
          ∀ jj, jj < ii → ts.getD jj none ≠ some v)) ∧
    overlapMask [5, 7] [some 5, some 5, some 7] = [true, false, true] := by
  constructor
  · intro ov ts ii hii
    have hlen : ii < (overlapMask ov ts).length := by
      simpa [overlapMask] using hii
    rw [List.getD_eq_getElem _ _ hlen]
    simp only [overlapMask, List.getElem_map, List.getElem_range]
    cases hts : ts.getD ii none with
    | none => simp
    | some v =>
      rw [Bool.and_eq_true, decide_eq_true_eq, Bool.not_eq_true',
        decide_eq_false_iff_not, mem_take_getD]
      constructor
      · rintro ⟨hov, hnot⟩
        refine ⟨v, rfl, hov, ?_⟩
        intro jj hj hg
        exact hnot ⟨jj, hj, hg⟩
      · rintro ⟨w, hw, hov, hfirst⟩
        have hvw : v = w := Option.some.inj hw
        subst hvw
        refine ⟨hov, ?_⟩
        rintro ⟨jj, hj, hg⟩
        exact hfirst jj hj hg
  · rfl

/-- **C3** witness: the mask characterization applied at overlap `[5,7]`, raw
sequence `[5,5,7]`, position `0`. -/
theorem selection_mask_spec_witness :
    (∃ v, ([some 5, some 5, some 7] : List (Option Int)).getD 0 none = some v ∧
      v ∈ ([5, 7] : List Int) ∧
      ∀ jj, jj < 0 →
        ([some 5, some 5, some 7] : List (Option Int)).getD jj none ≠ some v) ∧
    overlapMask [5, 7] [some 5, some 5, some 7] = [true, false, true] :=
  ⟨(selection_mask_spec.1 [5, 7] [some 5, some 5, some 7] 0 (by decide)).mp
      (by decide),
   selection_mask_spec.2⟩

/-! ## Time alignment count (C2) -/

/-- The reach's raw instants when its SWOT file exists, else an empty
sequence (only consulted under an all-files-present hypothesis). -/
def tsOf (r : Reach) : List (Option Int) :=
  match r.swot with
  | some d => d.ts
  | none => []

/-- Spec-side: the deduplicated set of one reach's valid instants. -/
def reachInstantSet (r : Reach) : Finset Int :=
  match r.swot with
  | some d => (validInstants d.ts).toFinset
  | none => ∅

/-- Spec-side: the deduplicated intersection of the per-reach valid-instant
sets (empty for an empty reach list). -/
def specInterSet : List Reach → Finset Int
  | [] => ∅
  | r :: rest => rest.foldl (fun s x => s ∩ reachInstantSet x) (reachInstantSet r)

/-- The dictionary update of the first loop: record this reach's raw instants
under its id when its SWOT file exists. -/
def alltsUpd (m : List (Nat × List (Option Int))) (r : Reach) :
    List (Nat × List (Option Int)) :=
  match r.swot with
  | some d => (r.id, d.ts) :: m
  | none => m

theorem buildAllts_eq_foldl (reaches : List Reach) :
    buildAllts reaches = reaches.foldl alltsUpd [] := rfl

theorem reachInstantSet_eq (r : Reach) :
    reachInstantSet r = (validInstants (tsOf r)).toFinset := by
  cases h : r.swot <;> simp [reachInstantSet, tsOf, h, validInstants]

theorem mem_foldl_inter {α : Type} (f : α → Finset Int) (l : List α)
    (init : Finset Int) (x : Int) :
    x ∈ l.foldl (fun s r => s ∩ f r) init ↔ x ∈ init ∧ ∀ r ∈ l, x ∈ f r := by
  induction l generalizing init with
  | nil => simp
  | cons a l ih =>
    rw [List.foldl_cons, ih]
    constructor
    · rintro ⟨hx, hall⟩
      rw [Finset.mem_inter] at hx
      refine ⟨hx.1, ?_⟩
      intro r hr
      rcases List.mem_cons.1 hr with hr | hr
      · subst hr
        exact hx.2
      · exact hall r hr
    · rintro ⟨hx, hall⟩
      refine ⟨Finset.mem_inter.2 ⟨hx, hall a (List.mem_cons_self a l)⟩, ?_⟩
      intro r hr
      exact hall r (List.mem_cons_of_mem a hr)

theorem mem_specInterSet (r0 : Reach) (rest : List Reach) (x : Int) :
    x ∈ specInterSet (r0 :: rest) ↔ ∀ r ∈ r0 :: rest, x ∈ reachInstantSet r := by
  rw [specInterSet, mem_foldl_inter]
  constructor
  · rintro ⟨h0, hall⟩
    intro r hr
    rcases List.mem_cons.1 hr with hr | hr
    · subst hr
      exact h0
    · exact hall r hr
  · intro hall
    exact ⟨hall r0 (List.mem_cons_self r0 rest),
      fun r hr => hall r (List.mem_cons_of_mem r0 hr)⟩

theorem interList_nodup (xs ys : List Int) : (interList xs ys).Nodup :=
  (List.nodup_dedup xs).filter _

theorem mem_interList (xs ys : List Int) (x : Int) :
    x ∈ interList xs ys ↔ x ∈ xs ∧ x ∈ ys := by
  rw [interList, List.mem_filter, List.mem_dedup]
  simp

theorem interList_toFinset (xs ys : List Int) :
    (interList xs ys).toFinset = xs.toFinset ∩ ys.toFinset := by
  ext x
  rw [List.mem_toFinset, mem_interList, Finset.mem_inter, List.mem_toFinset,
    List.mem_toFinset]

theorem lookup_foldl_alltsUpd_frame (k : Nat) :
    ∀ (l : List Reach) (acc : List (Nat × List (Option Int))),
      (∀ r ∈ l, r.id ≠ k) →
      List.lookup k (l.foldl alltsUpd acc) = List.lookup k acc := by
  intro l
  induction l with
  | nil => intro acc _; rfl
  | cons x l ih =>
    intro acc hne
    rw [List.foldl_cons, ih (alltsUpd acc x) (fun r hr => hne r (List.mem_cons_of_mem x hr))]
    cases hx : x.swot with
    | none => rw [alltsUpd, hx]
    | some d =>
      rw [alltsUpd, hx]
      have hbeq : (k == x.id) = false := by
        simp only [beq_eq_false_iff_ne, ne_eq]
        exact fun h => hne x (List.mem_cons_self x l) h.symm
      rw [List.lookup_cons, hbeq]

theorem lookup_foldl_alltsUpd :
    ∀ (l : List Reach) (acc : List (Nat × List (Option Int))),
      (l.map Reach.id).Nodup →
      ∀ r ∈ l, ∀ d, r.swot = some d →
        List.lookup r.id (l.foldl alltsUpd acc) = some d.ts := by
  intro l
  induction l with
  | nil => intro acc _ r hr; exact absurd hr (List.not_mem_nil r)
  | cons x l ih =>
    intro acc hids r hr d hd
    have hids' : x.id ∉ l.map Reach.id ∧ (l.map Reach.id).Nodup := by
      rw [List.map_cons, List.nodup_cons] at hids
      exact hids
    rcases List.mem_cons.1 hr with hr | hr
    · subst hr
      rw [List.foldl_cons]
      have hne : ∀ s ∈ l, s.id ≠ r.id := by
        intro s hs heq
        exact hids'.1 (heq ▸ List.mem_map_of_mem Reach.id hs)
      rw [lookup_foldl_alltsUpd_frame r.id l (alltsUpd acc r) hne, alltsUpd, hd,
        List.lookup_cons]
      simp
    · rw [List.foldl_cons]
      exact ih (alltsUpd acc x) hids'.2 r hr d hd

theorem lookup_buildAllts (reaches : List Reach)
    (hids : (reaches.map Reach.id).Nodup) (r : Reach) (hr : r ∈ reaches)
    (d : SwotData) (hd : r.swot = some d) :
    List.lookup r.id (buildAllts reaches) = some d.ts :=
  lookup_foldl_alltsUpd reaches [] hids r hr d hd

theorem foldlM_overlap (allts : List (Nat × List (Option Int))) :
    ∀ (rest : List Reach) (acc : List Int),
      (∀ r ∈ rest, List.lookup r.id allts = some (tsOf r)) →
      (rest.foldlM (fun acc r =>
          match List.lookup r.id allts with
          | none => Except.error ()
          | some ts => Except.ok (interList acc (validInstants ts))) acc
        : Except Unit (List Int))
        = .ok (rest.foldl (fun a r => interList a (validInstants (tsOf r))) acc) := by
  intro rest
  induction rest with
  | nil => intro acc _; rfl
  | cons r rest ih =>
    intro acc hlk
    rw [List.foldlM_cons, hlk r (List.mem_cons_self r rest)]
    show (rest.foldlM _ (interList acc (validInstants (tsOf r)))
      : Except Unit (List Int)) = _
    rw [ih (interList acc (validInstants (tsOf r)))
      (fun s hs => hlk s (List.mem_cons_of_mem r hs)), List.foldl_cons]

theorem computeOverlap_ok (r0 : Reach) (rest : List Reach)
    (hids : ((r0 :: rest).map Reach.id).Nodup)
    (hswot : ∀ r ∈ r0 :: rest, r.swot.isSome) :
    computeOverlap (buildAllts (r0 :: rest)) (r0 :: rest) =
      .ok (rest.foldl (fun a r => interList a (validInstants (tsOf r)))
        (validInstants (tsOf r0))) := by
  obtain ⟨d0, hd0⟩ := Option.isSome_iff_exists.1 (hswot r0 (List.mem_cons_self r0 rest))
  have hl0 : List.lookup r0.id (buildAllts (r0 :: rest)) = some d0.ts :=
    lookup_buildAllts _ hids r0 (List.mem_cons_self r0 rest) d0 hd0
  have hts0 : tsOf r0 = d0.ts := by rw [tsOf, hd0]
  rw [computeOverlap, hl0, ← hts0]
  exact foldlM_overlap _ rest (validInstants (tsOf r0)) (by
    intro r hr
    obtain ⟨d, hd⟩ := Option.isSome_iff_exists.1 (hswot r (List.mem_cons_of_mem r0 hr))
    have := lookup_buildAllts _ hids r (List.mem_cons_of_mem r0 hr) d hd
    rw [this, tsOf, hd])

theorem overlapFold_toFinset :
    ∀ (rest : List Reach) (acc : List Int),
      (rest.foldl (fun a r => interList a (validInstants (tsOf r))) acc).toFinset =
        rest.foldl (fun s r => s ∩ reachInstantSet r) acc.toFinset := by
  intro rest
  induction rest with
  | nil => intro acc; rfl
  | cons r rest ih =>
    intro acc
    rw [List.foldl_cons, List.foldl_cons, ih, interList_toFinset,
      reachInstantSet_eq]

theorem overlapFold_nodup :
    ∀ (rest : List Reach) (acc : List Int), acc.Nodup ∨ rest ≠ [] →
      (rest.foldl (fun a r => interList a (validInstants (tsOf r))) acc).Nodup := by
  intro rest
  induction rest with
  | nil =>
    intro acc h
    rcases h with h | h
    · exact h
    · exact absurd rfl h
  | cons r rest ih =>
    intro acc _
    rw [List.foldl_cons]
    rcases List.eq_nil_or_concat rest with hrest | _
    · subst hrest
      exact interList_nodup _ _
    · exact ih _ (Or.inl (interList_nodup _ _))

/-- **C2** (amended).  For reach-sets of at least two reaches (all SWOT files
present, distinct reach ids) the aligned count `nt` equals the size of the
deduplicated intersection of the per-reach valid-instant sets; and removing a
reach from a reach-set can only grow or preserve that intersection, never
shrink it. -/
theorem nt_eq_dedup_intersection_amended :
    (∀ (reaches : List Reach) (ov : List Int),
      2 ≤ reaches.length →
      (reaches.map Reach.id).Nodup →
      (∀ r ∈ reaches, r.swot.isSome) →
      computeOverlap (buildAllts reaches) reaches = .ok ov →
      ov.Nodup ∧ ov.toFinset = specInterSet reaches ∧
        ov.length = (specInterSet reaches).card) ∧
    (∀ (reaches : List Reach) (i : Nat), reaches ≠ [] →
      reaches.eraseIdx i ≠ [] →
      specInterSet reaches ⊆ specInterSet (reaches.eraseIdx i)) := by
  constructor
  · intro reaches ov hlen hids hswot hov
    match reaches, hlen with
    | r0 :: r1 :: rest, _ =>
      rw [computeOverlap_ok r0 (r1 :: rest) hids hswot] at hov
      have hov' : ov = (r1 :: rest).foldl
          (fun a r => interList a (validInstants (tsOf r)))
          (validInstants (tsOf r0)) := by
        injection hov.symm
      subst hov'
      have hnd : ((r1 :: rest).foldl (fun a r => interList a (validInstants (tsOf r)))
          (validInstants (tsOf r0))).Nodup :=
        overlapFold_nodup (r1 :: rest) _ (Or.inr (List.cons_ne_nil r1 rest))
      have hfin : ((r1 :: rest).foldl (fun a r => interList a (validInstants (tsOf r)))
          (validInstants (tsOf r0))).toFinset = specInterSet (r0 :: r1 :: rest) := by
        rw [overlapFold_toFinset, specInterSet, reachInstantSet_eq]
      refine ⟨hnd, hfin, ?_⟩
      rw [← hfin, List.toFinset_card_of_nodup hnd]
  · intro reaches i hne hne'
    intro x hx
    match reaches, hne with
    | r0 :: rest, _ =>
      have hall : ∀ r ∈ r0 :: rest, x ∈ reachInstantSet r :=
        (mem_specInterSet r0 rest x).1 hx
      match h' : (r0 :: rest).eraseIdx i, hne' with
      | s0 :: srest, _ =>
        refine (mem_specInterSet s0 srest x).2 ?_
        intro r hr
        refine hall r ?_
        have hsub := List.eraseIdx_sublist (r0 :: rest) i
        rw [h'] at hsub
        exact hsub.subset hr

/-- **C2** witness: the amended characterization applied to the two-reach set
with instants `[1,2]` and `[1,2]`, and the monotonicity part applied to
removing the third reach of a three-reach set. -/
theorem nt_eq_dedup_intersection_amended_witness :
    (([1, 2] : List Int).Nodup ∧
      ([1, 2] : List Int).toFinset =
        specInterSet [⟨0, some ⟨[some 1, some 2], [], [], []⟩, some 1⟩,
          ⟨1, some ⟨[some 1, some 2], [], [], []⟩, some 1⟩] ∧
      ([1, 2] : List Int).length =
        (specInterSet [⟨0, some ⟨[some 1, some 2], [], [], []⟩, some 1⟩,
          ⟨1, some ⟨[some 1, some 2], [], [], []⟩, some 1⟩]).card) ∧
    specInterSet [⟨0, some ⟨[some 1, some 2], [], [], []⟩, some 1⟩,
        ⟨1, some ⟨[some 1, some 2], [], [], []⟩, some 1⟩,
        ⟨2, some ⟨[some 1], [], [], []⟩, some 1⟩] ⊆
      specInterSet ([⟨0, some ⟨[some 1, some 2], [], [], []⟩, some 1⟩,
        ⟨1, some ⟨[some 1, some 2], [], [], []⟩, some 1⟩,
        ⟨2, some ⟨[some 1], [], [], []⟩, some 1⟩].eraseIdx 2) :=
  ⟨nt_eq_dedup_intersection_amended.1
      [⟨0, some ⟨[some 1, some 2], [], [], []⟩, some 1⟩,
       ⟨1, some ⟨[some 1, some 2], [], [], []⟩, some 1⟩]
      [1, 2] (by decide) (by decide) (by decide) rfl,
   nt_eq_dedup_intersection_amended.2
      [⟨0, some ⟨[some 1, some 2], [], [], []⟩, some 1⟩,
       ⟨1, some ⟨[some 1, some 2], [], [], []⟩, some 1⟩,
       ⟨2, some ⟨[some 1], [], [], []⟩, some 1⟩] 2
      (List.cons_ne_nil _ _) (List.cons_ne_nil _ _)⟩

/-- **C2** counterexample to the claim as stated: a single-reach set with raw
instants `[5,5]` gets `nt = 2` although the deduplicated intersection has
size 1; and removing the third reach of the three-reach set below makes the
overlap GROW from one instant to two, refuting "removing a reach can only
shrink or preserve this intersection". -/
theorem nt_dedup_counterexample :
    computeOverlap (buildAllts [⟨0, some ⟨[some 5, some 5], [], [], []⟩, some 1⟩])
      [⟨0, some ⟨[some 5, some 5], [], [], []⟩, some 1⟩] = .ok [5, 5] ∧
    (specInterSet [⟨0, some ⟨[some 5, some 5], [], [], []⟩, some 1⟩]).card = 1 ∧
    ([5, 5] : List Int).length ≠
      (specInterSet [⟨0, some ⟨[some 5, some 5], [], [], []⟩, some 1⟩]).card ∧
    computeOverlap
      (buildAllts [⟨0, some ⟨[some 1, some 2], [], [], []⟩, some 1⟩,
        ⟨1, some ⟨[some 1, some 2], [], [], []⟩, some 1⟩,
        ⟨2, some ⟨[some 1], [], [], []⟩, some 1⟩])
      [⟨0, some ⟨[some 1, some 2], [], [], []⟩, some 1⟩,
        ⟨1, some ⟨[some 1, some 2], [], [], []⟩, some 1⟩,
        ⟨2, some ⟨[some 1], [], [], []⟩, some 1⟩] = .ok [1] ∧
    computeOverlap
      (buildAllts [⟨0, some ⟨[some 1, some 2], [], [], []⟩, some 1⟩,
        ⟨1, some ⟨[some 1, some 2], [], [], []⟩, some 1⟩])
      [⟨0, some ⟨[some 1, some 2], [], [], []⟩, some 1⟩,
        ⟨1, some ⟨[some 1, some 2], [], [], []⟩, some 1⟩] = .ok [1, 2] ∧
    ¬ (([1, 2] : List Int).length ≤ ([1] : List Int).length) := by
  refine ⟨rfl, ?_, ?_, rfl, rfl, ?_⟩ <;> decide

/-! ## Validity filter (`retrieve_obs`, step 2) -/

/-- Column `j` has an undefined (NaN) entry in some row of `M`
(`np.any(np.isnan(M), 0)` at column `j`). -/
def colHasNaN (M : List (List (Option Int))) (j : Nat) : Bool :=
  M.any (fun row => (row.getD j (some 0)).isNone)

/-- `iDelete = np.where(any(isnan(h),0) | any(isnan(w),0) | any(isnan(S),0))`:
the ascending list of time columns with an undefined reading in any reach in
any of the three channels. -/
def iDeleteOf (h w S : List (List (Option Int))) (nt : Nat) : List Nat :=
  (List.range nt).filter (fun j => colHasNaN h j || colHasNaN w j || colHasNaN S j)

/-- `np.delete(row, D)` starting at position `j`: drop the entries whose
position is in `D`, preserving the relative order of the rest. -/
def dropIdxsFrom {α : Type} : List α → Nat → List Nat → List α
  | [], _, _ => []
  | x :: xs, j, D =>
    if j ∈ D then dropIdxsFrom xs (j + 1) D else x :: dropIdxsFrom xs (j + 1) D

/-- `np.delete(row, D)` along a row. -/
def dropIdxs {α : Type} (row : List α) (D : List Nat) : List α :=
  dropIdxsFrom row 0 D

theorem dropIdxsFrom_eq {α : Type} (z : α) (D : List Nat) :
    ∀ (xs : List α) (j : Nat),
      dropIdxsFrom xs j D =
        ((List.range' j xs.length).filter (fun p => decide (p ∉ D))).map
          (fun p => xs.getD (p - j) z) := by
  intro xs
  induction xs with
  | nil => intro j; rfl
  | cons x xs ih =>
    intro j
    have hcongr :
        ((List.range' (j + 1) xs.length).filter (fun p => decide (p ∉ D))).map
            (fun p => xs.getD (p - (j + 1)) z) =
          ((List.range' (j + 1) xs.length).filter (fun p => decide (p ∉ D))).map
            (fun p => (x :: xs).getD (p - j) z) := by
      apply List.map_congr_left
      intro p hp
      have hp' : j + 1 ≤ p := by
        have := (List.mem_range'_1.1 (List.mem_of_mem_filter hp)).1
        omega
      have hsub : p - j = (p - (j + 1)) + 1 := by omega
      rw [hsub, List.getD_cons_succ]
    rw [List.length_cons, List.range'_succ]
    by_cases hj : j ∈ D
    · rw [dropIdxsFrom, if_pos hj, List.filter_cons_of_neg (by simpa using hj),
        ih (j + 1), hcongr]
    · rw [dropIdxsFrom, if_neg hj, List.filter_cons_of_pos (by simpa using hj),
        List.map_cons, Nat.sub_self, List.getD_cons_zero, ih (j + 1), hcongr]

theorem dropIdxs_eq_complement {α : Type} (z : α) (row : List α) (D : List Nat) :
    dropIdxs row D =
      ((List.range row.length).filter (fun p => decide (p ∉ D))).map
        (fun p => row.getD p z) := by
  rw [dropIdxs, dropIdxsFrom_eq z D row 0, List.range_eq_range']
  apply List.map_congr_left
  intro p _
  rw [Nat.sub_zero]

theorem length_filter_add_length_filter_not {α : Type} (p : α → Bool) :
    ∀ l : List α, (l.filter p).length + (l.filter (fun a => !(p a))).length = l.length := by
  intro l
  induction l with
  | nil => rfl
  | cons x l ih =>
    cases hx : p x with
    | true =>
      rw [List.filter_cons_of_pos hx, List.filter_cons_of_neg (by simp [hx]),
        List.length_cons, List.length_cons]
      omega
    | false =>
      rw [List.filter_cons_of_neg (by simp [hx]), List.filter_cons_of_pos (by simp [hx]),
        List.length_cons, List.length_cons]
      omega

theorem filter_mem_length (nt : Nat) (D : List Nat) (hnd : D.Nodup)
    (hb : ∀ e ∈ D, e < nt) :
    ((List.range nt).filter (fun p => decide (p ∈ D))).length = D.length := by
  have hfn : ((List.range nt).filter (fun p => decide (p ∈ D))).Nodup :=
    (List.nodup_range nt).filter _
  have hset : ((List.range nt).filter (fun p => decide (p ∈ D))).toFinset = D.toFinset := by
    ext x
    rw [List.mem_toFinset, List.mem_toFinset, List.mem_filter, List.mem_range]
    constructor
    · rintro ⟨_, hx⟩
      simpa using hx
    · intro hx
      exact ⟨hb x hx, by simpa using hx⟩
  have := congrArg Finset.card hset
  rwa [List.toFinset_card_of_nodup hfn, List.toFinset_card_of_nodup hnd] at this

theorem filter_not_mem_length (nt : Nat) (D : List Nat) (hnd : D.Nodup)
    (hb : ∀ e ∈ D, e < nt) :
    ((List.range nt).filter (fun p => decide (p ∉ D))).length = nt - D.length := by
  have hsplit := length_filter_add_length_filter_not
    (fun p => decide (p ∈ D)) (List.range nt)
  have heq : (List.range nt).filter (fun p => !(decide (p ∈ D))) =
      (List.range nt).filter (fun p => decide (p ∉ D)) := by
    apply List.filter_congr
    intro p _
    simp
  rw [heq, filter_mem_length nt D hnd hb, List.length_range] at hsplit
  omega

theorem iDeleteOf_nodup (h w S : List (List (Option Int))) (nt : Nat) :
    (iDeleteOf h w S nt).Nodup :=
  (List.nodup_range nt).filter _

theorem iDeleteOf_lt (h w S : List (List (Option Int))) (nt : Nat) :
    ∀ e ∈ iDeleteOf h w S nt, e < nt := by
  intro e he
  have := List.mem_of_mem_filter he
  simpa using this

/-- **C6**.  The validity filter marks a time column iff some reach has an
undefined reading in some of the three channels at that column; the marked
indices form an ascending ledger; removing them from each channel row and
from the aligned instant vector keeps exactly the unmarked columns in their
original relative order, and shrinks every length from `nt` to
`nt - |ledger|`. -/
theorem validity_filter_spec (h w S : List (List (Option Int))) (t : List Int)
    (nt : Nat) (D : List Nat) (hD : D = iDeleteOf h w S nt)
    (hh : ∀ row ∈ h, row.length = nt) (hw : ∀ row ∈ w, row.length = nt)
    (hS : ∀ row ∈ S, row.length = nt) (ht : t.length = nt) :
    (∀ j, j ∈ D ↔ j < nt ∧
      ((∃ row ∈ h, row.getD j (some 0) = none) ∨
       (∃ row ∈ w, row.getD j (some 0) = none) ∨
       (∃ row ∈ S, row.getD j (some 0) = none))) ∧
    D.Pairwise (· < ·) ∧
    (∀ row ∈ h, dropIdxs row D =
      ((List.range nt).filter (fun p => decide (p ∉ D))).map
        (fun p => row.getD p (some 0))) ∧
    (∀ row ∈ w, dropIdxs row D =
      ((List.range nt).filter (fun p => decide (p ∉ D))).map
        (fun p => row.getD p (some 0))) ∧
    (∀ row ∈ S, dropIdxs row D =
      ((List.range nt).filter (fun p => decide (p ∉ D))).map
        (fun p => row.getD p (some 0))) ∧
    (dropIdxs t D =
      ((List.range nt).filter (fun p => decide (p ∉ D))).map (fun p => t.getD p 0)) ∧
    (∀ row ∈ h, (dropIdxs row D).length = nt - D.length) ∧
    (∀ row ∈ w, (dropIdxs row D).length = nt - D.length) ∧
    (∀ row ∈ S, (dropIdxs row D).length = nt - D.length) ∧
    (dropIdxs t D).length = nt - D.length := by
  subst hD
  have hnd := iDeleteOf_nodup h w S nt
  have hlt := iDeleteOf_lt h w S nt
  have hcomp : ∀ {α : Type} (z : α) (row : List α), row.length = nt →
      dropIdxs row (iDeleteOf h w S nt) =
        ((List.range nt).filter (fun p => decide (p ∉ iDeleteOf h w S nt))).map
          (fun p => row.getD p z) := by
    intro α z row hrow
    rw [dropIdxs_eq_complement z row (iDeleteOf h w S nt), hrow]
  have hlen : ∀ {α : Type} (z : α) (row : List α), row.length = nt →
      (dropIdxs row (iDeleteOf h w S nt)).length =
        nt - (iDeleteOf h w S nt).length := by
    intro α z row hrow
    rw [hcomp z row hrow, List.length_map, filter_not_mem_length nt _ hnd hlt]
  refine ⟨?_, List.Pairwise.filter _ (List.pairwise_lt_range nt),
    fun row hr => hcomp (some 0) row (hh row hr),
    fun row hr => hcomp (some 0) row (hw row hr),
    fun row hr => hcomp (some 0) row (hS row hr),
    hcomp 0 t ht,
    fun row hr => hlen (some 0) row (hh row hr),
    fun row hr => hlen (some 0) row (hw row hr),
    fun row hr => hlen (some 0) row (hS row hr),
    hlen 0 t ht⟩
  intro j
  rw [iDeleteOf, List.mem_filter, List.mem_range]
  constructor
  · rintro ⟨hj, hbad⟩
    refine ⟨hj, ?_⟩
    rcases Bool.or_eq_true_iff.1 hbad with hor | hS'
    · rcases Bool.or_eq_true_iff.1 hor with hh' | hw'
      · exact Or.inl (by
          obtain ⟨row, hr, hrow⟩ := List.any_eq_true.1 hh'
          exact ⟨row, hr, Option.isNone_iff_eq_none.1 hrow⟩)
      · exact Or.inr (Or.inl (by
          obtain ⟨row, hr, hrow⟩ := List.any_eq_true.1 hw'
          exact ⟨row, hr, Option.isNone_iff_eq_none.1 hrow⟩))
    · exact Or.inr (Or.inr (by
        obtain ⟨row, hr, hrow⟩ := List.any_eq_true.1 hS'
        exact ⟨row, hr, Option.isNone_iff_eq_none.1 hrow⟩))
  · rintro ⟨hj, hbad⟩
    refine ⟨hj, ?_⟩
    rcases hbad with ⟨row, hr, hrow⟩ | ⟨row, hr, hrow⟩ | ⟨row, hr, hrow⟩
    · exact Bool.or_eq_true_iff.2 (Or.inl (Bool.or_eq_true_iff.2 (Or.inl
        (List.any_eq_true.2 ⟨row, hr, by rw [Option.isNone_iff_eq_none]; exact hrow⟩))))
    · exact Bool.or_eq_true_iff.2 (Or.inl (Bool.or_eq_true_iff.2 (Or.inr
        (List.any_eq_true.2 ⟨row, hr, by rw [Option.isNone_iff_eq_none]; exact hrow⟩))))
    · exact Bool.or_eq_true_iff.2 (Or.inr
        (List.any_eq_true.2 ⟨row, hr, by rw [Option.isNone_iff_eq_none]; exact hrow⟩))

/-- A concrete 1-reach, 2-column elevation matrix with one NaN entry. -/
def hmat : List (List (Option Int)) := [[some 1, none]]

/-- A concrete clean width matrix. -/
def wmat : List (List (Option Int)) := [[some 2, some 3]]

/-- A concrete clean slope matrix. -/
def smat : List (List (Option Int)) := [[some 4, some 5]]

/-- A concrete aligned instant vector. -/
def tvec : List Int := [10, 11]

/-- **C6** witness: the filter characterization on a 1-reach, 2-column set in
which column 1 has an undefined elevation reading. -/
theorem validity_filter_spec_witness :
    (∀ j, j ∈ iDeleteOf hmat wmat smat 2 ↔
      j < 2 ∧
      ((∃ row ∈ hmat, row.getD j (some 0) = none) ∨
       (∃ row ∈ wmat, row.getD j (some 0) = none) ∨
       (∃ row ∈ smat, row.getD j (some 0) = none))) ∧
    (iDeleteOf hmat wmat smat 2).Pairwise (· < ·) ∧
    (∀ row ∈ hmat, dropIdxs row (iDeleteOf hmat wmat smat 2) =
      ((List.range 2).filter (fun p => decide (p ∉ iDeleteOf hmat wmat smat 2))).map
        (fun p => row.getD p (some 0))) ∧
    (∀ row ∈ wmat, dropIdxs row (iDeleteOf hmat wmat smat 2) =
      ((List.range 2).filter (fun p => decide (p ∉ iDeleteOf hmat wmat smat 2))).map
        (fun p => row.getD p (some 0))) ∧
    (∀ row ∈ smat, dropIdxs row (iDeleteOf hmat wmat smat 2) =
      ((List.range 2).filter (fun p => decide (p ∉ iDeleteOf hmat wmat smat 2))).map
        (fun p => row.getD p (some 0))) ∧
    (dropIdxs tvec (iDeleteOf hmat wmat smat 2) =
      ((List.range 2).filter (fun p => decide (p ∉ iDeleteOf hmat wmat smat 2))).map
        (fun p => tvec.getD p 0)) ∧
    (∀ row ∈ hmat, (dropIdxs row (iDeleteOf hmat wmat smat 2)).length =
      2 - (iDeleteOf hmat wmat smat 2).length) ∧
    (∀ row ∈ wmat, (dropIdxs row (iDeleteOf hmat wmat smat 2)).length =
      2 - (iDeleteOf hmat wmat smat 2).length) ∧
    (∀ row ∈ smat, (dropIdxs row (iDeleteOf hmat wmat smat 2)).length =
      2 - (iDeleteOf hmat wmat smat 2).length) ∧
    (dropIdxs tvec (iDeleteOf hmat wmat smat 2)).length =
      2 - (iDeleteOf hmat wmat smat 2).length :=
  validity_filter_spec hmat wmat smat tvec 2 _ rfl
    (by decide) (by decide) (by decide) (by decide)

theorem dropIdxsFrom_nil_right {α : Type} :
    ∀ (xs : List α) (j : Nat), dropIdxsFrom xs j [] = xs := by
  intro xs
  induction xs with
  | nil => intro j; rfl
  | cons x xs ih =>
    intro j
    rw [dropIdxsFrom, if_neg (List.not_mem_nil j), ih]

/-- **C8**.  On a dataset with no undefined readings (i.e. one that the
validity filter has already cleaned), the filter marks no column: the ledger
is empty, dropping it leaves all three matrices and the instant vector
unchanged, and `nt` is unchanged. -/
theorem validity_filter_idempotent (h w S : List (List (Option Int)))
    (t : List Int) (nt : Nat)
    (hh : ∀ row ∈ h, ∀ x ∈ row, x ≠ none)
    (hw : ∀ row ∈ w, ∀ x ∈ row, x ≠ none)
    (hS : ∀ row ∈ S, ∀ x ∈ row, x ≠ none) :
    iDeleteOf h w S nt = [] ∧
    (∀ row ∈ h, dropIdxs row (iDeleteOf h w S nt) = row) ∧
    (∀ row ∈ w, dropIdxs row (iDeleteOf h w S nt) = row) ∧
    (∀ row ∈ S, dropIdxs row (iDeleteOf h w S nt) = row) ∧
    dropIdxs t (iDeleteOf h w S nt) = t ∧
    nt - (iDeleteOf h w S nt).length = nt := by
  have hcol : ∀ (M : List (List (Option Int))),
      (∀ row ∈ M, ∀ x ∈ row, x ≠ none) → ∀ j, colHasNaN M j = false := by
    intro M hM j
    rw [colHasNaN]
    rw [List.any_eq_false]
    intro row hr
    rcases Nat.lt_or_ge j row.length with hj | hj
    · rw [List.getD_eq_getElem _ _ hj]
      have hmem := List.getElem_mem (l := row) (n := j) hj
      have := hM row hr _ hmem
      simpa [Option.isNone_iff_eq_none] using this
    · rw [List.getD_eq_default _ _ hj]
      simp
  have hempty : iDeleteOf h w S nt = [] := by
    rw [iDeleteOf, List.filter_eq_nil_iff]
    intro j _
    rw [hcol h hh j, hcol w hw j, hcol S hS j]
    simp
  rw [hempty]
  exact ⟨rfl,
    fun row _ => dropIdxsFrom_nil_right row 0,
    fun row _ => dropIdxsFrom_nil_right row 0,
    fun row _ => dropIdxsFrom_nil_right row 0,
    dropIdxsFrom_nil_right t 0,
    rfl⟩

/-- A concrete clean elevation matrix (no NaN entries). -/
def hmatClean : List (List (Option Int)) := [[some 1, some 2]]

/-- A concrete clean width matrix (no NaN entries). -/
def wmatClean : List (List (Option Int)) := [[some 3, some 4]]

/-- A concrete clean slope matrix (no NaN entries). -/
def smatClean : List (List (Option Int)) := [[some 5, some 6]]

/-- **C8** witness: idempotence on a clean 1-reach, 2-column dataset. -/
theorem validity_filter_idempotent_witness :
    iDeleteOf hmatClean wmatClean smatClean 2 = [] ∧
    (∀ row ∈ hmatClean, dropIdxs row (iDeleteOf hmatClean wmatClean smatClean 2) = row) ∧
    (∀ row ∈ wmatClean, dropIdxs row (iDeleteOf hmatClean wmatClean smatClean 2) = row) ∧
    (∀ row ∈ smatClean, dropIdxs row (iDeleteOf hmatClean wmatClean smatClean 2) = row) ∧
    dropIdxs tvec (iDeleteOf hmatClean wmatClean smatClean 2) = tvec ∧
    2 - (iDeleteOf hmatClean wmatClean smatClean 2).length = 2 :=
  validity_filter_idempotent hmatClean wmatClean smatClean tvec 2
    (by decide) (by decide) (by decide)

/-! ## The quality-tier state machine of `retrieve_obs` -/

/-- Post-filter time-step threshold (line 105). -/
def ntmin : Nat := 4

/-- Pre-filter time-step threshold (line 106). -/
def ntmin_prior : Nat := 4

/-- Minimum reach count for a nominal set (line 107). -/
def nRmin : Nat := 3

/-- Initial classification (lines 203-206): Degraded (1) when there are fewer
than `nRmin` reaches, else Nominal (0).  Invalid is 2. -/
def initQuality (nR : Nat) : Nat := if nR < nRmin then 1 else 0

/-- Post-filter checkpoint (lines 328-333), evaluated on the filtered count:
below `ntmin` the tier becomes Invalid when also below `ntmin_prior`, else
Degraded; otherwise the incoming tier is kept. -/
def postFilterQuality (ntf q : Nat) : Nat :=
  if ntf < ntmin then (if ntf < ntmin_prior then 2 else 1) else q

/-- One file access of the 1.2 loop: the SWOT channel reads (wse, width,
slope2), the SoS prior read, or the SWORD reference read, tagged with the
reach id. -/
inductive ReadEvent
  | channels (id : Nat)
  | prior (id : Nat)
  | sword (id : Nat)

/-- `xs[mask]`: the entries of `xs` at the positions the boolean mask
selects. -/
def selectMask {α : Type} (xs : List α) (mask : List Bool) : List α :=
  (xs.zip mask).filterMap (fun p => if p.2 then some p.1 else none)

/-- Result of the 1.2 read loop: either the consistency-guard return of step
1.2.2 (`abort`, which forces tier 2), or the completed pass with the final
tier, the three masked channel matrices, the reads performed, and the trace
of tier values after each reach. -/
inductive LoopOut
  | abort (reads : List ReadEvent) (trace : List Nat)
  | done (q : Nat) (hM wM sM : List (List (Option Int)))
      (reads : List ReadEvent) (trace : List Nat)

/-- The 1.2 loop of `retrieve_obs` (lines 221-291): per reach, compare the
mask-selected count with `nt` (1.2.2; mismatch returns at once with tier 2),
read the three channels through the mask (1.2.3), read the prior and set
tier 2 when it is NaN (1.2.4) without stopping, and read the SWORD reference
data (1.2.5).  A reach whose id is missing from `allts`, or whose SWOT file
vanished after alignment, crashes (`Except.error`). -/
def readLoop (allts : List (Nat × List (Option Int))) (ov : List Int) (nt : Nat) :
    List Reach → Nat → Except Unit LoopOut
  | [], q => .ok (.done q [] [] [] [] [])
  | r :: rest, q =>
    match List.lookup r.id allts, r.swot with
    | some ts, some d =>
      let mask := overlapMask ov ts
      if (mask.count true) ≠ nt then
        .ok (.abort [] [2])
      else
        let q1 := if r.qbar = none then 2 else q
        let evs := [ReadEvent.channels r.id, ReadEvent.prior r.id,
          ReadEvent.sword r.id]
        match readLoop allts ov nt rest q1 with
        | .error e => .error e
        | .ok (.abort rds tr) => .ok (.abort (evs ++ rds) (q1 :: tr))
        | .ok (.done q2 hM wM sM rds tr) =>
            .ok (.done q2 (selectMask d.h mask :: hM) (selectMask d.w mask :: wM)
              (selectMask d.S mask :: sM) (evs ++ rds) (q1 :: tr))
    | _, _ => .error ()

/-- The observable outcome of `retrieve_obs`: the tier (`SetQuality`), the
deletion ledger (`iDelete`, `[]` for the early returns that reset it to the
scalar 0), its count (`nDelete`), the final `DAll.nt`, the file reads
performed, and the chronological trace of tier values at the checkpoints. -/
structure RunResult where
  q : Nat
  iDelete : List Nat
  nDelete : Nat
  nt : Nat
  reads : List ReadEvent
  trace : List Nat

/-- `retrieve_obs`: time alignment (KeyError on a missing file, NameError on
an empty reach list), initial classification, pre-filter checkpoint with
short-circuit, the 1.2 read loop, the validity filter, and the post-filter
checkpoint.  Early returns reset the ledger; only the final return carries
the actual `iDelete`. -/
def retrieveObs (reaches : List Reach) : Except Unit RunResult :=
  match reaches with
  | [] => .error ()
  | _ :: _ =>
    match computeOverlap (buildAllts reaches) reaches with
    | .error e => .error e
    | .ok ov =>
      let nt := ov.length
      let q0 := initQuality reaches.length
      if nt < ntmin_prior then
        .ok ⟨2, [], 0, nt, [], [q0, 2]⟩
      else
        match readLoop (buildAllts reaches) ov nt reaches q0 with
        | .error e => .error e
        | .ok (.abort rds tr) => .ok ⟨2, [], 0, nt, rds, q0 :: tr⟩
        | .ok (.done q2 hM wM sM rds tr) =>
          let iDel := iDeleteOf hM wM sM nt
          let ntf := nt - iDel.length
          if ntf < ntmin then
            .ok ⟨postFilterQuality ntf q2, [], 0, ntf, rds,
              q0 :: tr ++ [postFilterQuality ntf q2]⟩
          else
            .ok ⟨q2, iDel, iDel.length, ntf, rds, q0 :: tr ++ [q2]⟩

theorem initQuality_le_one (nR : Nat) : initQuality nR ≤ 1 := by
  rw [initQuality]
  split <;> omega

theorem le_postFilterQuality (ntf q : Nat) (hq : q ≤ 2) :
    q ≤ postFilterQuality ntf q := by
  rw [postFilterQuality, ntmin, ntmin_prior]
  split <;> omega

theorem postFilterQuality_le_two (ntf q : Nat) (hq : q ≤ 2) :
    postFilterQuality ntf q ≤ 2 := by
  rw [postFilterQuality, ntmin, ntmin_prior]
  split <;> omega

theorem readLoop_abort_inv (allts : List (Nat × List (Option Int))) (ov : List Int)
    (nt : Nat) :
    ∀ (rs : List Reach) (q : Nat) (rds : List ReadEvent) (tr : List Nat), q ≤ 2 →
      readLoop allts ov nt rs q = .ok (.abort rds tr) →
      List.Chain' (· ≤ ·) (q :: tr) ∧ tr.getLast? = some 2 := by
  intro rs
  induction rs with
  | nil =>
    intro q rds tr hq hr
    simp [readLoop] at hr
  | cons r rest ih =>
    intro q rds tr hq hr
    simp only [readLoop] at hr
    split at hr
    · split at hr
      · simp only [Except.ok.injEq, LoopOut.abort.injEq] at hr
        obtain ⟨-, htr⟩ := hr
        subst htr
        exact ⟨List.chain'_cons.2 ⟨by omega, List.chain'_singleton 2⟩, rfl⟩
      · split at hr
        · simp at hr
        · rename_i rds' tr' hrec
          simp only [Except.ok.injEq, LoopOut.abort.injEq] at hr
          obtain ⟨-, htr⟩ := hr
          subst htr
          have hq1 : (if r.qbar = none then 2 else q) ≤ 2 := by
            split <;> omega
          obtain ⟨hch, hlast⟩ := ih (if r.qbar = none then 2 else q) rds' tr' hq1 hrec
          have hle : q ≤ (if r.qbar = none then 2 else q) := by
            split <;> omega
          refine ⟨List.chain'_cons.2 ⟨hle, hch⟩, ?_⟩
          cases tr' with
          | nil => simp at hlast
          | cons a l => rw [List.getLast?_cons_cons]; exact hlast
        · simp at hr
    · simp at hr

theorem readLoop_done_inv (allts : List (Nat × List (Option Int))) (ov : List Int)
    (nt : Nat) :
    ∀ (rs : List Reach) (q q2 : Nat) (hM wM sM : List (List (Option Int)))
      (rds : List ReadEvent) (tr : List Nat), q ≤ 2 →
      readLoop allts ov nt rs q = .ok (.done q2 hM wM sM rds tr) →
      List.Chain' (· ≤ ·) (q :: tr) ∧ (q :: tr).getLast? = some q2 ∧ q2 ≤ 2 ∧
        (q2 = q ∨ q2 = 2) ∧ (q2 = 2 → q = 2 ∨ ∃ r ∈ rs, r.qbar = none) := by
  intro rs
  induction rs with
  | nil =>
    intro q q2 hM wM sM rds tr hq hr
    simp only [readLoop, Except.ok.injEq, LoopOut.done.injEq] at hr
    obtain ⟨hqq, -, -, -, -, htr⟩ := hr
    subst hqq
    subst htr
    exact ⟨List.chain'_singleton q, rfl, hq, Or.inl rfl, fun h => Or.inl h⟩
  | cons r rest ih =>
    intro q q2 hM wM sM rds tr hq hr
    simp only [readLoop] at hr
    split at hr
    · split at hr
      · simp at hr
      · split at hr
        · simp at hr
        · simp at hr
        · rename_i q2' hM' wM' sM' rds' tr' hrec
          simp only [Except.ok.injEq, LoopOut.done.injEq] at hr
          obtain ⟨rfl, -, -, -, -, rfl⟩ := hr
          have hq1 : (if r.qbar = none then 2 else q) ≤ 2 := by
            split <;> omega
          obtain ⟨hch, hlast, hq2, hcase, hpr⟩ :=
            ih (if r.qbar = none then 2 else q) _ hM' wM' sM' rds' tr' hq1 hrec
          have hle : q ≤ (if r.qbar = none then 2 else q) := by
            split <;> omega
          refine ⟨List.chain'_cons.2 ⟨hle, hch⟩, ?_, hq2, ?_, ?_⟩
          · rw [List.getLast?_cons_cons]
            exact hlast
          · rcases hcase with hcase | hcase
            · by_cases hqb : r.qbar = none
              · rw [if_pos hqb] at hcase
                exact Or.inr hcase
              · rw [if_neg hqb] at hcase
                exact Or.inl hcase
            · exact Or.inr hcase
          · intro h2
            rcases hpr h2 with hq1eq | ⟨r', hr', hnone⟩
            · by_cases hqb : r.qbar = none
              · exact Or.inr ⟨r, List.mem_cons_self r rest, hqb⟩
              · rw [if_neg hqb] at hq1eq
                exact Or.inl hq1eq
            · exact Or.inr ⟨r', List.mem_cons_of_mem r hr', hnone⟩
    · simp at hr

theorem chain'_le_snoc (a : Nat) (l : List Nat) (c : Nat) (b : Nat)
    (hch : List.Chain' (· ≤ ·) (a :: l)) (hlast : (a :: l).getLast? = some b)
    (hbc : b ≤ c) :
    List.Chain' (· ≤ ·) (a :: (l ++ [c])) ∧ (a :: (l ++ [c])).getLast? = some c := by
  have heq : a :: (l ++ [c]) = (a :: l) ++ [c] := rfl
  rw [heq, List.getLast?_concat]
  refine ⟨List.chain'_append.2 ⟨hch, List.chain'_singleton _, ?_⟩, rfl⟩
  intro x hx y hy
  rw [hlast, Option.mem_def, Option.some.injEq] at hx
  simp only [List.head?_cons, Option.mem_def, Option.some.injEq] at hy
  subst hx
  subst hy
  exact hbc

/-- **C4**.  Over a completed observation-retrieval run the trace of tier
values at the successive checkpoints (initial classification, pre-filter
checkpoint, per-reach consistency and prior guards, post-filter checkpoint)
is monotone non-increasing in permissiveness (numerically non-decreasing in
the encoding Nominal=0, Degraded=1, Invalid=2), and the returned tier is the
trace's last entry — so no later checkpoint ever improves the tier. -/
theorem quality_tier_monotone (reaches : List Reach) (res : RunResult)
    (h : retrieveObs reaches = .ok res) :
    List.Chain' (· ≤ ·) res.trace ∧ res.trace.getLast? = some res.q := by
  cases reaches with
  | nil => simp [retrieveObs] at h
  | cons r rest =>
    have hq0 : initQuality (r :: rest).length ≤ 1 := initQuality_le_one _
    simp only [retrieveObs] at h
    split at h
    · simp at h
    · split at h
      · simp only [Except.ok.injEq] at h
        subst h
        refine ⟨List.chain'_cons.2 ⟨by omega, List.chain'_singleton 2⟩, ?_⟩
        rw [List.getLast?_cons_cons]
        rfl
      · split at h
        · simp at h
        · rename_i rds tr hrec
          simp only [Except.ok.injEq] at h
          subst h
          obtain ⟨hch, hlast⟩ := readLoop_abort_inv _ _ _ (r :: rest)
            (initQuality (r :: rest).length) rds tr (by omega) hrec
          refine ⟨hch, ?_⟩
          cases tr with
          | nil => simp at hlast
          | cons a l =>
            rw [List.getLast?_cons_cons]
            exact hlast
        · rename_i q2 hM wM sM rds tr hrec
          obtain ⟨hch, hlast, hq2, -, -⟩ := readLoop_done_inv _ _ _ (r :: rest)
            (initQuality (r :: rest).length) q2 hM wM sM rds tr (by omega) hrec
          split at h
          · simp only [Except.ok.injEq] at h
            subst h
            dsimp only
            exact chain'_le_snoc _ tr _ q2 hch hlast (le_postFilterQuality _ _ hq2)
          · simp only [Except.ok.injEq] at h
            subst h
            dsimp only
            exact chain'_le_snoc _ tr _ q2 hch hlast (le_refl _)

/-! ## Concrete reach-sets used by the run-level examples -/

/-- Five aligned instants. -/
def ts5 : List (Option Int) := [some 0, some 1, some 2, some 3, some 4]

/-- A clean five-entry channel row. -/
def c5 : List (Option Int) := [some 1, some 1, some 1, some 1, some 1]

/-- A channel row with an undefined reading at column 2. -/
def hBad : List (Option Int) := [some 1, some 1, none, some 1, some 1]

/-- Three well-formed reaches with identical instants and clean channels. -/
def threeReaches : List Reach :=
  [⟨0, some ⟨ts5, c5, c5, c5⟩, some 100⟩,
   ⟨1, some ⟨ts5, c5, c5, c5⟩, some 100⟩,
   ⟨2, some ⟨ts5, c5, c5, c5⟩, some 100⟩]

/-- Two well-formed reaches (fewer than `nRmin`). -/
def twoReaches : List Reach :=
  [⟨0, some ⟨ts5, c5, c5, c5⟩, some 100⟩,
   ⟨1, some ⟨ts5, c5, c5, c5⟩, some 100⟩]

/-- Two reaches, the first with a NaN prior and a NaN elevation column. -/
def twoReachesBadPrior : List Reach :=
  [⟨0, some ⟨ts5, hBad, c5, c5⟩, none⟩,
   ⟨1, some ⟨ts5, c5, c5, c5⟩, some 7⟩]

/-- **C4** witness: the monotone-trace theorem applied to a complete nominal
three-reach run. -/
theorem quality_tier_monotone_witness :
    List.Chain' (· ≤ ·) ([0, 0, 0, 0, 0] : List Nat) ∧
      ([0, 0, 0, 0, 0] : List Nat).getLast? = some 0 :=
  quality_tier_monotone threeReaches
    ⟨0, [], 0, 5,
      [.channels 0, .prior 0, .sword 0, .channels 1, .prior 1, .sword 1,
       .channels 2, .prior 2, .sword 2],
      [0, 0, 0, 0, 0]⟩ rfl

/-- **C5** (code bug).  A reach-set containing a reach whose SWOT file is
absent makes `retrieve_obs` raise `KeyError`: the first loop never inserts a
key for the missing reach into `allts`, and the overlap loop then evaluates
`allts[reach_id]` unconditionally — both when the missing reach is first and
when it comes later.  The spec's non-fatal empty-candidate-set behavior never
happens. -/
theorem missing_swot_file_raises :
    retrieveObs [⟨0, none, some 5⟩] = .error () ∧
    retrieveObs [⟨0, some ⟨[some 0, some 1, some 2, some 3], [], [], []⟩, some 5⟩,
      ⟨1, none, some 5⟩] = .error () :=
  ⟨rfl, rfl⟩

/-- **C7**.  When the aligned count is below `ntmin_prior`, `retrieve_obs`
returns immediately with tier Invalid and a zeroed deletion ledger, having
performed no channel, prior, or reference read at all. -/
theorem prefilter_short_circuit (reaches : List Reach) (ov : List Int)
    (hne : reaches ≠ [])
    (hov : computeOverlap (buildAllts reaches) reaches = .ok ov)
    (hnt : ov.length < ntmin_prior) :
    retrieveObs reaches =
      .ok ⟨2, [], 0, ov.length, [], [initQuality reaches.length, 2]⟩ := by
  cases reaches with
  | nil => exact absurd rfl hne
  | cons r rest =>
    simp only [retrieveObs, hov, if_pos hnt]

/-- **C7** witness: a single reach with three valid instants. -/
theorem prefilter_short_circuit_witness :
    retrieveObs [⟨0, some ⟨[some 0, some 1, some 2], [], [], []⟩, some 5⟩] =
      .ok ⟨2, [], 0, 3, [], [1, 2]⟩ :=
  prefilter_short_circuit
    [⟨0, some ⟨[some 0, some 1, some 2], [], [], []⟩, some 5⟩]
    [0, 1, 2] (List.cons_ne_nil _ _) rfl (by decide)

/-- **C9**.  Because `ntmin = ntmin_prior = 4`, the post-filter checkpoint
can never yield Degraded: a filtered count below `ntmin` always sets tier
Invalid; consequently a run only ever returns Degraded when the initial
reach-count classification produced it (`nR < nRmin`). -/
theorem degraded_postfilter_unreachable :
    (∀ ntf q, ntf < ntmin → postFilterQuality ntf q = 2) ∧
    (∀ (reaches : List Reach) (res : RunResult),
      retrieveObs reaches = .ok res → res.q = 1 → reaches.length < nRmin) := by
  constructor
  · intro ntf q hlt
    rw [postFilterQuality, if_pos hlt, if_pos (by
      rw [ntmin_prior]
      rw [ntmin] at hlt
      exact hlt)]
  · intro reaches res h hq1
    cases reaches with
    | nil => simp [retrieveObs] at h
    | cons r rest =>
      simp only [retrieveObs] at h
      split at h
      · simp at h
      · split at h
        · simp only [Except.ok.injEq] at h
          subst h
          simp at hq1
        · split at h
          · simp at h
          · simp only [Except.ok.injEq] at h
            subst h
            simp at hq1
          · rename_i q2 hM wM sM rds tr hrec
            obtain ⟨-, -, -, hcase, -⟩ := readLoop_done_inv _ _ _ (r :: rest)
              (initQuality (r :: rest).length) q2 hM wM sM rds tr
              (by have := initQuality_le_one (r :: rest).length; omega) hrec
            split at h
            · rename_i hpost
              simp only [Except.ok.injEq] at h
              subst h
              dsimp only at hq1
              rw [postFilterQuality, if_pos hpost, if_pos (by
                rw [ntmin_prior]
                rw [ntmin] at hpost
                exact hpost)] at hq1
              omega
            · simp only [Except.ok.injEq] at h
              subst h
              dsimp only at hq1
              rcases hcase with hcase | hcase
              · have h1 : initQuality (r :: rest).length = 1 := by omega
                rw [initQuality] at h1
                by_cases hR : (r :: rest).length < nRmin
                · exact hR
                · rw [if_neg hR] at h1
                  omega
              · omega

/-- **C9** witness: the arithmetic part at a filtered count of 3, and the
run part on a two-reach nominal-data run that returns Degraded. -/
theorem degraded_postfilter_unreachable_witness :
    postFilterQuality 3 0 = 2 ∧ twoReaches.length < nRmin :=
  ⟨degraded_postfilter_unreachable.1 3 0 (by decide),
   degraded_postfilter_unreachable.2 twoReaches
     ⟨1, [], 0, 5,
       [.channels 0, .prior 0, .sword 0, .channels 1, .prior 1, .sword 1],
       [1, 1, 1, 1]⟩ rfl rfl⟩

/-! ## C10: the undefined-prior guard does not short-circuit -/

/-- The reach's elevation channel (empty when the SWOT file is absent). -/
def hOf (r : Reach) : List (Option Int) :=
  match r.swot with
  | some d => d.h
  | none => []

/-- The reach's width channel. -/
def wOf (r : Reach) : List (Option Int) :=
  match r.swot with
  | some d => d.w
  | none => []

/-- The reach's slope channel. -/
def sOf (r : Reach) : List (Option Int) :=
  match r.swot with
  | some d => d.S
  | none => []

/-- One aligned channel matrix: per reach, the channel read through that
reach's selection mask. -/
def maskedRows (f : Reach → List (Option Int)) (ov : List Int)
    (reaches : List Reach) : List (List (Option Int)) :=
  reaches.map (fun r => selectMask (f r) (overlapMask ov (tsOf r)))

/-- The deletion ledger the validity filter computes on the aligned
matrices of a reach-set. -/
def ledgerOf (reaches : List Reach) (ov : List Int) : List Nat :=
  iDeleteOf (maskedRows hOf ov reaches) (maskedRows wOf ov reaches)
    (maskedRows sOf ov reaches) ov.length

theorem foldl_quality (rs : List Reach) : ∀ q : Nat,
    rs.foldl (fun acc r => if r.qbar = none then 2 else acc) q =
      if rs.any (fun r => decide (r.qbar = none)) then 2 else q := by
  induction rs with
  | nil =>
    intro q
    simp
  | cons r rs ih =>
    intro q
    rw [List.foldl_cons, ih]
    by_cases hqb : r.qbar = none
    · simp [hqb]
    · simp [hqb]

theorem readLoop_all_read (allts : List (Nat × List (Option Int))) (ov : List Int)
    (nt : Nat) :
    ∀ (rs : List Reach) (q : Nat),
      (∀ r ∈ rs, ∃ d, r.swot = some d ∧ List.lookup r.id allts = some d.ts ∧
        (overlapMask ov d.ts).count true = nt) →
      ∃ tr, readLoop allts ov nt rs q =
        .ok (.done (rs.foldl (fun acc r => if r.qbar = none then 2 else acc) q)
          (maskedRows hOf ov rs) (maskedRows wOf ov rs) (maskedRows sOf ov rs)
          (rs.flatMap (fun r =>
            [ReadEvent.channels r.id, ReadEvent.prior r.id, ReadEvent.sword r.id]))
          tr) := by
  intro rs
  induction rs with
  | nil =>
    intro q _
    exact ⟨[], rfl⟩
  | cons r rest ih =>
    intro q hall
    obtain ⟨d, hd, hl, hc⟩ := hall r (List.mem_cons_self r rest)
    obtain ⟨tr, htr⟩ := ih (if r.qbar = none then 2 else q)
      (fun s hs => hall s (List.mem_cons_of_mem r hs))
    refine ⟨(if r.qbar = none then 2 else q) :: tr, ?_⟩
    simp only [readLoop, hl, hd, htr]
    rw [if_neg (fun hne => hne hc)]
    simp only [maskedRows, List.map_cons, List.flatMap_cons, List.foldl_cons,
      hOf, wOf, sOf, tsOf, hd]

/-- **C10**.  An undefined discharge-scale prior does not short-circuit
retrieval: the tier becomes Invalid, yet every remaining reach's channels,
prior and reference data are still read, the validity filter still runs, and
when the filtered count stays at least `ntmin` the return carries the actual
(possibly nonzero) deletion ledger.  Conversely, every other Invalid return
resets the ledger to zero: an Invalid result with a nonzero ledger can only
come from a NaN prior. -/
theorem prior_guard_nonfatal :
    (∀ (reaches : List Reach) (ov : List Int),
      reaches ≠ [] →
      computeOverlap (buildAllts reaches) reaches = .ok ov →
      (reaches.map Reach.id).Nodup →
      (∀ r ∈ reaches, r.swot.isSome) →
      (∀ r ∈ reaches, (overlapMask ov (tsOf r)).count true = ov.length) →
      ¬ ov.length < ntmin_prior →
      (∃ r ∈ reaches, r.qbar = none) →
      ¬ (ov.length - (ledgerOf reaches ov).length < ntmin) →
      ∃ res, retrieveObs reaches = .ok res ∧ res.q = 2 ∧
        res.iDelete = ledgerOf reaches ov ∧
        res.nDelete = (ledgerOf reaches ov).length ∧
        res.reads = reaches.flatMap (fun r =>
          [ReadEvent.channels r.id, ReadEvent.prior r.id, ReadEvent.sword r.id]) ∧
        res.nt = ov.length - (ledgerOf reaches ov).length) ∧
    (∀ (reaches : List Reach) (res : RunResult),
      retrieveObs reaches = .ok res → res.q = 2 → res.nDelete ≠ 0 →
      ∃ r ∈ reaches, r.qbar = none) := by
  constructor
  · intro reaches ov hne hov hids hswot hmask hnt hprior hpost
    have hall : ∀ r ∈ reaches, ∃ d, r.swot = some d ∧
        List.lookup r.id (buildAllts reaches) = some d.ts ∧
        (overlapMask ov d.ts).count true = ov.length := by
      intro r hr
      obtain ⟨d, hd⟩ := Option.isSome_iff_exists.1 (hswot r hr)
      refine ⟨d, hd, lookup_buildAllts reaches hids r hr d hd, ?_⟩
      have hm := hmask r hr
      rw [tsOf, hd] at hm
      exact hm
    have hq2 : reaches.foldl (fun acc r => if r.qbar = none then 2 else acc)
        (initQuality reaches.length) = 2 := by
      rw [foldl_quality]
      obtain ⟨r, hr, hqb⟩ := hprior
      rw [if_pos (List.any_eq_true.2 ⟨r, hr, by simp [hqb]⟩)]
    simp only [ledgerOf] at hpost ⊢
    cases reaches with
    | nil => exact absurd rfl hne
    | cons r rest =>
      obtain ⟨tr, htr⟩ := readLoop_all_read (buildAllts (r :: rest)) ov ov.length
        (r :: rest) (initQuality (r :: rest).length) hall
      simp only [retrieveObs, hov, if_neg hnt, htr, if_neg hpost]
      exact ⟨_, rfl, hq2, rfl, rfl, rfl, rfl⟩
  · intro reaches res h hq2 hnd
    cases reaches with
    | nil => simp [retrieveObs] at h
    | cons r rest =>
      simp only [retrieveObs] at h
      split at h
      · simp at h
      · split at h
        · simp only [Except.ok.injEq] at h
          subst h
          simp at hnd
        · split at h
          · simp at h
          · simp only [Except.ok.injEq] at h
            subst h
            simp at hnd
          · rename_i q2 hM wM sM rds tr hrec
            split at h
            · simp only [Except.ok.injEq] at h
              subst h
              simp at hnd
            · simp only [Except.ok.injEq] at h
              subst h
              dsimp only at hq2 hnd
              obtain ⟨-, -, -, -, hpr⟩ := readLoop_done_inv _ _ _ (r :: rest)
                (initQuality (r :: rest).length) q2 hM wM sM rds tr
                (by have := initQuality_le_one (r :: rest).length; omega) hrec
              rcases hpr hq2 with hq0 | hex
              · have := initQuality_le_one (r :: rest).length
                omega
              · exact hex

/-- **C10** witness: two reaches, the first with a NaN prior and a NaN
elevation column; the run finishes Invalid with the one-column ledger intact
and all reads performed. -/
theorem prior_guard_nonfatal_witness :
    (∃ res, retrieveObs twoReachesBadPrior = .ok res ∧ res.q = 2 ∧
      res.iDelete = ledgerOf twoReachesBadPrior [0, 1, 2, 3, 4] ∧
      res.nDelete = (ledgerOf twoReachesBadPrior [0, 1, 2, 3, 4]).length ∧
      res.reads = twoReachesBadPrior.flatMap (fun r =>
        [ReadEvent.channels r.id, ReadEvent.prior r.id, ReadEvent.sword r.id]) ∧
      res.nt = ([0, 1, 2, 3, 4] : List Int).length -
        (ledgerOf twoReachesBadPrior [0, 1, 2, 3, 4]).length) ∧
    (∃ r ∈ twoReachesBadPrior, r.qbar = none) :=
  ⟨prior_guard_nonfatal.1 twoReachesBadPrior [0, 1, 2, 3, 4]
     (List.cons_ne_nil _ _) rfl (by decide) (by decide) (by decide) (by decide)
     (by decide) (by decide),
   prior_guard_nonfatal.2 twoReachesBadPrior
     ⟨2, [2], 1, 4,
       [.channels 0, .prior 0, .sword 0, .channels 1, .prior 1, .sword 1],
       [1, 2, 2, 2]⟩ rfl rfl (by decide)⟩

end MetroMan
